import Mathlib

/-!
Verification of the pylogic term-manipulation core against its specification.

The repository ships the test suites of the core (`pylogic_tests/base.py` and a
smaller mirror); the library module `pylogic.base` itself is not part of the
sources.  Every definition below is therefore modelled from the specification
document (`spec.md`), with the repository's test expectations as the arbiter
wherever the specification's prose underdetermines or contradicts them (this is
noted at the definition concerned).
-/

namespace PylogicSpec

/-- Modelled from the spec: the Term data model of section 3.1, instantiated at the
single variant exercised by the repository (`FakePylogicObject`), whose only
child-independent attribute is `name` and whose children are an ordered list of
terms. -/
inductive PTerm : Type where
  | mk (name : String) (children : List PTerm)
deriving Repr

mutual

def beqPTerm : PTerm → PTerm → Bool
  | .mk n cs, .mk n2 cs2 => n == n2 && beqPTermList cs cs2

def beqPTermList : List PTerm → List PTerm → Bool
  | [], [] => true
  | a :: as, b :: bs => beqPTerm a b && beqPTermList as bs
  | _, _ => false

end

mutual

theorem beqPTerm_eq : ∀ a b : PTerm, (beqPTerm a b = true) ↔ a = b
  | .mk n cs, .mk n2 cs2 => by
    simp only [beqPTerm, Bool.and_eq_true, beq_iff_eq, beqPTermList_eq cs cs2,
      PTerm.mk.injEq]

theorem beqPTermList_eq : ∀ as bs : List PTerm, (beqPTermList as bs = true) ↔ as = bs
  | [], [] => by simp [beqPTermList]
  | [], _ :: _ => by simp [beqPTermList]
  | _ :: _, [] => by simp [beqPTermList]
  | a :: as, b :: bs => by
    simp only [beqPTermList, Bool.and_eq_true, beqPTerm_eq a b, beqPTermList_eq as bs,
      List.cons.injEq]

end

/-- Structural equality of terms (spec section 3.1: equal names and elementwise
equal children) is decidable. -/
instance : DecidableEq PTerm := fun a b => decidable_of_iff _ (beqPTerm_eq a b)

def PTerm.name : PTerm → String
  | .mk n _ => n

def PTerm.children : PTerm → List PTerm
  | .mk _ cs => cs

/-- Modelled from the spec: the default unification `key_check` — a term is basic
iff its children sequence is empty (a leaf). -/
def isLeaf (t : PTerm) : Bool :=
  t.children.isEmpty

/-- A substitution: a finite mapping from terms to terms, kept as an ordered
association list (spec section 3.3). -/
abbrev Subst := List (PTerm × PTerm)

mutual

/-- Modelled from the spec: the child-dependent attribute `leaves` (section 3.1) —
the in-order concatenation over the children of `[child]` when the child is a
leaf and of the child's own leaves otherwise; empty for a childless term. -/
def leaves : PTerm → List PTerm
  | .mk _ cs => leavesList cs

def leavesList : List PTerm → List PTerm
  | [] => []
  | c :: cs => (if c.children.isEmpty then [c] else leaves c) ++ leavesList cs

end

def namesOf (ts : List PTerm) : List String :=
  ts.map PTerm.name

/-- Modelled from the spec: looking a candidate subterm up in the substitution
under the default `equal_check` (structural equality); the first matching
key wins (section 4.4). -/
def keyLookup (m : Subst) (t : PTerm) : Option PTerm :=
  match m with
  | [] => none
  | (k, v) :: rest => if k = t then some v else keyLookup rest t

mutual

/-- Modelled from the spec: `replace` with `positions` omitted (section 4.4) —
simultaneous substitution: each node is looked up in the map once; on a match
the map value is emitted verbatim and the rewriter does not recurse into the
replacement; otherwise the children are rewritten and the node is rebuilt. -/
def replaceAll (m : Subst) : PTerm → PTerm
  | .mk n cs =>
    match keyLookup m (.mk n cs) with
    | some v => v
    | none => .mk n (replaceAllList m cs)

def replaceAllList (m : Subst) : List PTerm → List PTerm
  | [] => []
  | c :: cs => replaceAll m c :: replaceAllList m cs

end

/-- The position paths that remain relevant for the child at index `i`: the
tails of the paths that start with `i` (spec sections 3.2 and 4.4). -/
def tailsFor (i : Nat) (ps : List (List Nat)) : List (List Nat) :=
  match ps with
  | [] => []
  | [] :: rest => tailsFor i rest
  | (j :: p) :: rest => if j = i then p :: tailsFor i rest else tailsFor i rest

mutual

/-- Modelled from the spec: `replace` with a list of position paths
(section 4.4).  The empty path addresses the current node only: when it is
among the positions and the node matches a map key, the map value is emitted
and deeper paths are ignored (the resolution fixed in section 9).  Otherwise
each child receives the tails of the paths that descend into it; a path
exhausted at a child switches that child to unrestricted replacement, which is
the behaviour the repository's tests pin down
(`t_replace_specific_position`, `t_replace_specific_multiple_positions`,
`t_replace_positions_has_empty_root_not_key`).  Paths that address no existing
child contribute nothing (out-of-bounds positions are silently ignored). -/
def replacePos (m : Subst) (ps : List (List Nat)) : PTerm → PTerm
  | .mk n cs =>
    match (if ([] : List Nat) ∈ ps then keyLookup m (.mk n cs) else none) with
    | some v => v
    | none => .mk n (replacePosList m ps 0 cs)

def replacePosList (m : Subst) (ps : List (List Nat)) (i : Nat) : List PTerm → List PTerm
  | [] => []
  | c :: cs =>
    (if ([] : List Nat) ∈ tailsFor i ps then replaceAll m c
     else replacePos m (tailsFor i ps) c) :: replacePosList m ps (i + 1) cs

end

/-- Modelled from the spec: the public `replace` operation (section 4.4) with the
default structural `equal_check`; `positions` absent means replace everywhere,
a present list restricts the rewrite to the listed paths. -/
def replace (t : PTerm) (m : Subst) (positions : Option (List (List Nat))) : PTerm :=
  match positions with
  | none => replaceAll m t
  | some ps => replacePos m ps t

/-- Modelled from the spec: the error kinds of section 7 that are raised (the
unification failure is a null result, not an error). -/
inductive PyError : Type where
  | invalidArgument (msg : String)
  | deserializationFailure (msg : String)
deriving DecidableEq, Repr

/-- Modelled from the spec: the public entry of `replace` including the hidden
internal parameters `_path` and `_depth` (section 4.4): when a path is passed
and the depth exceeds its length, a validation failure of kind
`InvalidArgument` with the documented message is raised; otherwise the call
behaves as the plain `replace` (the in-range internal parameters only steer the
internal recursion). -/
def replaceChecked (t : PTerm) (m : Subst) (positions : Option (List (List Nat)))
    (path : Option (List Nat)) (depth : Nat) : Except PyError PTerm :=
  match path with
  | some p =>
    if p.length < depth then
      Except.error (PyError.invalidArgument
        "Depth must be at most the length of the path if path is provided.")
    else Except.ok (replace t m positions)
  | none => Except.ok (replace t m positions)

/-- A path is in-bounds for a term when every successive index lies within the
corresponding children sequence (spec section 3.2). -/
def inBoundsPath : List Nat → PTerm → Bool
  | [], _ => true
  | i :: rest, t =>
    match t.children[i]? with
    | some c => inBoundsPath rest c
    | none => false

mutual

/-- Whether the term `k` occurs anywhere inside `t` — as `t` itself or inside a
descendant. -/
def occursIn (k : PTerm) : PTerm → Bool
  | .mk n cs => if k = PTerm.mk n cs then true else occursInList k cs

def occursInList (k : PTerm) : List PTerm → Bool
  | [] => false
  | c :: cs => occursIn k c || occursInList k cs

end

/-- Modelled from the spec: `eq_child_independent_attrs` (section 4.1) at the
single modelled variant, whose only child-independent attribute is `name`. -/
def eq_child_independent_attrs (a b : PTerm) : Bool :=
  a.name == b.name

/-- Modelled from the spec: merging two substitutions produced for sibling
children (section 4.5.1) — when the same key already has an image, the images
must agree, otherwise unification fails; fresh keys are appended. -/
def mergeSubst (s1 s2 : Subst) : Option Subst :=
  match s2 with
  | [] => some s1
  | (k, v) :: rest =>
    match keyLookup s1 k with
    | some v2 => if v2 = v then mergeSubst s1 rest else none
    | none => mergeSubst (s1 ++ [(k, v)]) rest

mutual

/-- Modelled from the spec: first-order unification (section 4.5.1) with the
`key_check` predicate `kc` and the default structural `equal_check`: equal
terms unify with the empty substitution; a basic left term maps to the right
term; two complex terms unify childwise when their child-independent attributes
agree and their children counts match, merging the child substitutions
consistently; a complex left term against a basic right term fails.  Failure is
the null value, never an exception. -/
def unifyWith (kc : PTerm → Bool) : PTerm → PTerm → Option Subst
  | .mk n cs, .mk n2 cs2 =>
    if PTerm.mk n cs = PTerm.mk n2 cs2 then some []
    else if kc (.mk n cs) then some [(PTerm.mk n cs, PTerm.mk n2 cs2)]
    else if kc (.mk n2 cs2) then none
    else if eq_child_independent_attrs (.mk n cs) (.mk n2 cs2)
        ∧ cs.length = cs2.length then
      unifyChildren kc [] cs cs2
    else none

def unifyChildren (kc : PTerm → Bool) (acc : Subst) : List PTerm → List PTerm → Option Subst
  | [], [] => some acc
  | a :: as, b :: bs =>
    match unifyWith kc a b with
    | none => none
    | some s =>
      match mergeSubst acc s with
      | none => none
      | some acc2 => unifyChildren kc acc2 as bs
  | _, _ => none

end

/-- Modelled from the spec: `unify` with its default `key_check` (a term is basic
iff it is a leaf) and default structural `equal_check`. -/
def unify (a b : PTerm) : Option Subst :=
  unifyWith isLeaf a b

/-- Modelled from the spec: the serialized dictionary form of a term
(sections 4.8 and 6): the kind tag as a `class_module`/`class_name` pair, the
child-independent attribute `name`, the recursively serialized `children`, and
the child-dependent attribute `leaves` (absent in hand-written mappings that
omit child-dependent keys). -/
inductive PDict : Type where
  | mk (class_module class_name name : String) (children : List PDict)
      (leavesAttr : Option (List PDict))
deriving Repr

def PDict.childrenOf : PDict → List PDict
  | .mk _ _ _ cs _ => cs

def PDict.leavesAttrOf : PDict → Option (List PDict)
  | .mk _ _ _ _ l => l

/-- The serialized leaves of a node, computed from the already-serialized
children: a childless child contributes itself, any other child contributes its
own serialized leaves. -/
def dictLeaves (ds : List PDict) : List PDict :=
  match ds with
  | [] => []
  | d :: rest =>
    (if d.childrenOf.isEmpty then [d] else (d.leavesAttrOf).getD []) ++ dictLeaves rest

mutual

/-- Modelled from the spec: `to_dict` (section 4.8) at the modelled variant —
emits the kind tag of `FakePylogicObject`, the `name` attribute, the
recursively serialized children, and the serialized `leaves` attribute. -/
def to_dict : PTerm → PDict
  | .mk n cs =>
    let ds := to_dictList cs
    .mk "pylogic_tests.base" "FakePylogicObject" n ds (some (dictLeaves ds))

def to_dictList : List PTerm → List PDict
  | [] => []
  | c :: cs => to_dict c :: to_dictList cs

end

mutual

/-- Modelled from the spec: `from_dict` (section 4.8) — resolves the kind tag
against the registry (which, for the modelled variant, holds exactly
`pylogic_tests.base.FakePylogicObject`), reconstructs the children recursively
and invokes the constructor with the child-independent attribute `name`;
child-dependent attributes present in the mapping are ignored, they are
recomputed from the reconstructed children.  An unknown kind tag is a
deserialization failure, returned as the null value. -/
def from_dict : PDict → Option PTerm
  | .mk cm cn n cs _ =>
    if cm = "pylogic_tests.base" ∧ cn = "FakePylogicObject" then
      match from_dictList cs with
      | some ts => some (.mk n ts)
      | none => none
    else none

def from_dictList : List PDict → Option (List PTerm)
  | [] => some []
  | d :: ds =>
    match from_dict d, from_dictList ds with
    | some t, some ts => some (t :: ts)
    | _, _ => none

end

mutual

/-- A serialized mapping with every child-dependent key (`leaves`) removed, at
every node. -/
def stripChildDependent : PDict → PDict
  | .mk cm cn n cs _ => .mk cm cn n (stripChildDependentList cs) none

def stripChildDependentList : List PDict → List PDict
  | [] => []
  | d :: ds => stripChildDependent d :: stripChildDependentList ds

end

/-- Modelled from the spec: the value a pattern element is assigned by
`string_match` (section 4.7) — a single target index for a literal, a
half-open index range for a multi-variable. -/
inductive MatchVal : Type where
  | idx (i : Nat)
  | range (s e : Nat)
deriving DecidableEq, Repr

/-- Modelled from the spec: the concrete value an assignment entry denotes after
`matches_to_actual` (section 4.7) — the target element at a literal's index, or
the target sub-sequence of a multi-variable's range. -/
inductive ActualVal (α : Type) : Type where
  | single (x : Option α)
  | seq (xs : List α)
deriving DecidableEq, Repr

/-- The enumeration core of `string_match`: walks the pattern left to right with
the current target position; a multi-variable tries every remaining length in
ascending order from zero; a literal consumes exactly the element at the
current position (the positional consumption the repository's tests
`t_typical` and `t_no_match` pin down); the walk succeeds when the pattern
exactly spells the target. -/
def smGo (isMulti : String → Bool) (tlen : Nat) : List String → Nat → List (List (String × MatchVal))
  | [], pos => if pos = tlen then [[]] else []
  | p :: ps, pos =>
    if isMulti p then
      (List.range (tlen - pos + 1)).flatMap (fun len =>
        (smGo isMulti tlen ps (pos + len)).map
          (fun rest => (p, MatchVal.range pos (pos + len)) :: rest))
    else
      if pos < tlen then
        (smGo isMulti tlen ps (pos + 1)).map (fun rest => (p, MatchVal.idx pos) :: rest)
      else []

/-- Modelled from the spec: `string_match` (section 4.7) — enumerate every
assignment of pattern elements to target indices such that the pattern
concatenated in order exactly spells the target, multi-variable lengths
ascending from zero, left-biased. -/
def string_match {α : Type} (pattern : List String) (target : List α)
    (isMulti : String → Bool) : List (List (String × MatchVal)) :=
  smGo isMulti target.length pattern 0

/-- Modelled from the spec: `matches_to_actual` (section 4.7) — replace each
multi-variable range by the corresponding target sub-sequence and each literal
index by the target element there. -/
def matches_to_actual {α : Type} (ms : List (List (String × MatchVal)))
    (target : List α) : List (List (String × ActualVal α)) :=
  ms.map (fun m => m.map (fun kv =>
    (kv.1,
      match kv.2 with
      | MatchVal.idx i => ActualVal.single target[i]?
      | MatchVal.range s e => ActualVal.seq ((target.drop s).take (e - s)))))

/-- Modelled from the spec: the `is_multi_var` predicate of the string-match
scenario — an element is a multi-variable when it starts with the character
`*` (tested here as its one-character prefix). -/
def startsWithStar (s : String) : Bool :=
  s.take 1 = "*"

/-- The shared test fixture (`setup` in the repository's test suites). -/
def o1 : PTerm := .mk "1" []

def o2 : PTerm := .mk "2" []

def o3 : PTerm := .mk "3" [o1, o2]

def o4 : PTerm := .mk "4" [o3, o2]

def o5 : PTerm := .mk "5" [o4, o1, o3]

/-! Basic lemmas about substitution lookup. -/

theorem keyLookup_none_iff (m : Subst) (t : PTerm) :
    keyLookup m t = none ↔ ∀ p ∈ m, p.1 ≠ t := by
  induction m with
  | nil => simp [keyLookup]
  | cons q rest ih =>
    obtain ⟨k, v⟩ := q
    by_cases hk : k = t
    · subst hk
      simp [keyLookup]
    · simp [keyLookup, hk, ih]

theorem keyLookup_some_mem {m : Subst} {t v : PTerm} (h : keyLookup m t = some v) :
    (t, v) ∈ m := by
  induction m with
  | nil => simp [keyLookup] at h
  | cons q rest ih =>
    obtain ⟨k, w⟩ := q
    by_cases hk : k = t
    · subst hk
      simp [keyLookup] at h
      simp [h]
    · simp [keyLookup, hk] at h
      exact List.mem_cons_of_mem _ (ih h)

theorem keyLookup_append_some {s1 : Subst} (s2 : Subst) {k v : PTerm}
    (h : keyLookup s1 k = some v) : keyLookup (s1 ++ s2) k = some v := by
  induction s1 with
  | nil => simp [keyLookup] at h
  | cons q rest ih =>
    obtain ⟨k2, v2⟩ := q
    by_cases hk : k2 = k
    · subst hk
      simp [keyLookup] at h ⊢
      exact h
    · simp [keyLookup, hk] at h ⊢
      exact ih h

theorem keyLookup_append_none {s1 : Subst} (s2 : Subst) {k : PTerm}
    (h : keyLookup s1 k = none) : keyLookup (s1 ++ s2) k = keyLookup s2 k := by
  induction s1 with
  | nil => simp
  | cons q rest ih =>
    obtain ⟨k2, v2⟩ := q
    by_cases hk : k2 = k
    · simp [keyLookup, hk] at h
    · simp [keyLookup, hk] at h ⊢
      exact ih h

/-! Lemmas about merging substitutions. -/

theorem mergeSubst_mem {s2 : Subst} : ∀ {s1 s : Subst}, mergeSubst s1 s2 = some s →
    ∀ p ∈ s, p ∈ s1 ∨ p ∈ s2 := by
  induction s2 with
  | nil =>
    intro s1 s h p hp
    simp [mergeSubst] at h
    subst h
    exact Or.inl hp
  | cons q rest ih =>
    intro s1 s h p hp
    obtain ⟨k, v⟩ := q
    simp only [mergeSubst] at h
    cases hl : keyLookup s1 k with
    | some v2 =>
      simp only [hl] at h
      by_cases hv : v2 = v
      · rw [if_pos hv] at h
        rcases ih h p hp with h1 | h2
        · exact Or.inl h1
        · exact Or.inr (List.mem_cons_of_mem _ h2)
      · rw [if_neg hv] at h
        exact absurd h (by simp)
    | none =>
      simp only [hl] at h
      rcases ih h p hp with h1 | h2
      · rcases List.mem_append.mp h1 with h3 | h4
        · exact Or.inl h3
        · simp at h4
          exact Or.inr (by simp [h4])
      · exact Or.inr (List.mem_cons_of_mem _ h2)

theorem mergeSubst_lookup_preserve {s2 : Subst} : ∀ {s1 s : Subst},
    mergeSubst s1 s2 = some s → ∀ {k v : PTerm}, keyLookup s1 k = some v →
    keyLookup s k = some v := by
  induction s2 with
  | nil =>
    intro s1 s h k v hkv
    simp [mergeSubst] at h
    subst h
    exact hkv
  | cons q rest ih =>
    intro s1 s h k v hkv
    obtain ⟨k2, v2⟩ := q
    simp only [mergeSubst] at h
    cases hl : keyLookup s1 k2 with
    | some v3 =>
      simp only [hl] at h
      by_cases hv : v3 = v2
      · rw [if_pos hv] at h
        exact ih h hkv
      · rw [if_neg hv] at h
        exact absurd h (by simp)
    | none =>
      simp only [hl] at h
      exact ih h (keyLookup_append_some [(k2, v2)] hkv)

theorem mergeSubst_lookup_new {s2 : Subst} : ∀ {s1 s : Subst},
    mergeSubst s1 s2 = some s → ∀ p ∈ s2, keyLookup s p.1 = some p.2 := by
  induction s2 with
  | nil =>
    intro s1 s h p hp
    simp at hp
  | cons q rest ih =>
    intro s1 s h p hp
    obtain ⟨k2, v2⟩ := q
    simp only [mergeSubst] at h
    cases hl : keyLookup s1 k2 with
    | some v3 =>
      simp only [hl] at h
      by_cases hv : v3 = v2
      · rw [if_pos hv] at h
        rcases List.mem_cons.mp hp with h1 | h2
        · subst h1
          exact mergeSubst_lookup_preserve h (hv ▸ hl)
        · exact ih h p h2
      · rw [if_neg hv] at h
        exact absurd h (by simp)
    | none =>
      simp only [hl] at h
      rcases List.mem_cons.mp hp with h1 | h2
      · subst h1
        refine mergeSubst_lookup_preserve h ?_
        rw [keyLookup_append_none [(k2, v2)] hl]
        simp [keyLookup]
      · exact ih h p h2

/-! Replacement is the identity on a term in which no key occurs. -/

mutual

theorem replaceAll_not_occurs (m : Subst) : ∀ t : PTerm,
    (∀ p ∈ m, occursIn p.1 t = false) → replaceAll m t = t
  | .mk n cs => fun h => by
    have hnone : keyLookup m (.mk n cs) = none := by
      rw [keyLookup_none_iff]
      intro p hp heq
      have := h p hp
      rw [heq] at this
      simp [occursIn] at this
    have hcs : ∀ p ∈ m, occursInList p.1 cs = false := by
      intro p hp
      have := h p hp
      by_cases heq : p.1 = PTerm.mk n cs
      · rw [heq] at this ⊢
        simp [occursIn] at this
      · simpa [occursIn, heq] using this
    simp [replaceAll, hnone, replaceAllList_not_occurs m cs hcs]

theorem replaceAllList_not_occurs (m : Subst) : ∀ cs : List PTerm,
    (∀ p ∈ m, occursInList p.1 cs = false) → replaceAllList m cs = cs
  | [] => fun _ => by simp [replaceAllList]
  | c :: cs => fun h => by
    have hc : ∀ p ∈ m, occursIn p.1 c = false := by
      intro p hp
      have := h p hp
      simp [occursInList, Bool.or_eq_false_iff] at this
      exact this.1
    have hcs : ∀ p ∈ m, occursInList p.1 cs = false := by
      intro p hp
      have := h p hp
      simp [occursInList, Bool.or_eq_false_iff] at this
      exact this.2
    simp [replaceAllList, replaceAll_not_occurs m c hc,
      replaceAllList_not_occurs m cs hcs]

end

/-! Invariants of the unifier: every key of a produced substitution passes the
`key_check`, bindings survive the merging, and each binding of the final
substitution is retrievable by lookup. -/

mutual

theorem unifyWith_keys_basic (kc : PTerm → Bool) : ∀ a b : PTerm, ∀ s : Subst,
    unifyWith kc a b = some s → ∀ p ∈ s, kc p.1 = true
  | .mk n cs, .mk n2 cs2 => fun s h p hp => by
    simp only [unifyWith] at h
    by_cases he : PTerm.mk n cs = PTerm.mk n2 cs2
    · rw [if_pos he] at h
      simp at h
      subst h
      simp at hp
    · rw [if_neg he] at h
      by_cases hka : kc (.mk n cs) = true
      · simp only [hka, if_true] at h
        simp at h
        subst h
        simp at hp
        simp [hp, hka]
      · simp only [Bool.not_eq_true] at hka
        simp only [hka, Bool.false_eq_true, if_false] at h
        by_cases hkb : kc (.mk n2 cs2) = true
        · simp [hkb] at h
        · simp only [Bool.not_eq_true] at hkb
          simp only [hkb, Bool.false_eq_true, if_false] at h
          by_cases hcond : eq_child_independent_attrs (.mk n cs) (.mk n2 cs2) = true
              ∧ cs.length = cs2.length
          · rw [if_pos hcond] at h
            exact unifyChildren_keys_basic kc cs cs2 [] s h (by simp) p hp
          · rw [if_neg hcond] at h
            simp at h

theorem unifyChildren_keys_basic (kc : PTerm → Bool) : ∀ as bs : List PTerm,
    ∀ acc s : Subst, unifyChildren kc acc as bs = some s →
    (∀ p ∈ acc, kc p.1 = true) → ∀ p ∈ s, kc p.1 = true
  | [], [], acc, s => fun h hacc p hp => by
    simp only [unifyChildren] at h
    simp at h
    subst h
    exact hacc p hp
  | [], _ :: _, acc, s => fun h => by simp [unifyChildren] at h
  | _ :: _, [], acc, s => fun h => by simp [unifyChildren] at h
  | a :: as, b :: bs, acc, s => fun h hacc p hp => by
    simp only [unifyChildren] at h
    cases h1 : unifyWith kc a b with
    | none => simp [h1] at h
    | some s1 =>
      simp only [h1] at h
      cases h2 : mergeSubst acc s1 with
      | none => simp [h2] at h
      | some acc2 =>
        simp only [h2] at h
        refine unifyChildren_keys_basic kc as bs acc2 s h ?_ p hp
        intro q hq
        rcases mergeSubst_mem h2 q hq with hq1 | hq2
        · exact hacc q hq1
        · exact unifyWith_keys_basic kc a b s1 h1 q hq2

end

theorem unifyChildren_lookup_preserve (kc : PTerm → Bool) : ∀ (as bs : List PTerm)
    (acc s : Subst), unifyChildren kc acc as bs = some s →
    ∀ {k v : PTerm}, keyLookup acc k = some v → keyLookup s k = some v := by
  intro as
  induction as with
  | nil =>
    intro bs acc s h k v hkv
    cases bs with
    | nil =>
      simp [unifyChildren] at h
      subst h
      exact hkv
    | cons b bs => simp [unifyChildren] at h
  | cons a as ih =>
    intro bs acc s h k v hkv
    cases bs with
    | nil => simp [unifyChildren] at h
    | cons b bs =>
      simp only [unifyChildren] at h
      cases h1 : unifyWith kc a b with
      | none => simp [h1] at h
      | some s1 =>
        simp only [h1] at h
        cases h2 : mergeSubst acc s1 with
        | none => simp [h2] at h
        | some acc2 =>
          simp only [h2] at h
          exact ih bs acc2 s h (mergeSubst_lookup_preserve h2 hkv)

theorem unifyChildren_faithful (kc : PTerm → Bool) : ∀ (as bs : List PTerm)
    (acc s : Subst), unifyChildren kc acc as bs = some s →
    (∀ p ∈ acc, keyLookup acc p.1 = some p.2) →
    ∀ p ∈ s, keyLookup s p.1 = some p.2 := by
  intro as
  induction as with
  | nil =>
    intro bs acc s h hacc p hp
    cases bs with
    | nil =>
      simp [unifyChildren] at h
      subst h
      exact hacc p hp
    | cons b bs => simp [unifyChildren] at h
  | cons a as ih =>
    intro bs acc s h hacc p hp
    cases bs with
    | nil => simp [unifyChildren] at h
    | cons b bs =>
      simp only [unifyChildren] at h
      cases h1 : unifyWith kc a b with
      | none => simp [h1] at h
      | some s1 =>
        simp only [h1] at h
        cases h2 : mergeSubst acc s1 with
        | none => simp [h2] at h
        | some acc2 =>
          simp only [h2] at h
          refine ih bs acc2 s h ?_ p hp
          intro q hq
          rcases mergeSubst_mem h2 q hq with hq1 | hq2
          · exact mergeSubst_lookup_preserve h2 (hacc q hq1)
          · exact mergeSubst_lookup_new h2 q hq2

theorem unifyWith_faithful (kc : PTerm → Bool) {a b : PTerm} {s : Subst}
    (h : unifyWith kc a b = some s) : ∀ p ∈ s, keyLookup s p.1 = some p.2 := by
  obtain ⟨n, cs⟩ := a
  obtain ⟨n2, cs2⟩ := b
  simp only [unifyWith] at h
  by_cases he : PTerm.mk n cs = PTerm.mk n2 cs2
  · rw [if_pos he] at h
    simp at h
    subst h
    simp
  · rw [if_neg he] at h
    by_cases hka : kc (.mk n cs) = true
    · simp only [hka, if_true] at h
      simp at h
      subst h
      intro p hp
      simp at hp
      simp [hp, keyLookup]
    · simp only [Bool.not_eq_true] at hka
      simp only [hka, Bool.false_eq_true, if_false] at h
      by_cases hkb : kc (.mk n2 cs2) = true
      · simp [hkb] at h
      · simp only [Bool.not_eq_true] at hkb
        simp only [hkb, Bool.false_eq_true, if_false] at h
        by_cases hcond : eq_child_independent_attrs (.mk n cs) (.mk n2 cs2) = true
            ∧ cs.length = cs2.length
        · rw [if_pos hcond] at h
          exact unifyChildren_faithful kc cs cs2 [] s h (by simp)
        · rw [if_neg hcond] at h
          simp at h

/-! The heart of the round-trip property: replaying a substitution produced by
unification, provided every binding of the substitution under replay is
retrievable, every key is basic, and no key occurs anywhere in the target. -/

mutual

theorem unifyWith_replace_aux (kc : PTerm → Bool) : ∀ a b : PTerm, ∀ s : Subst,
    unifyWith kc a b = some s → ∀ U : Subst,
    (∀ p ∈ s, keyLookup U p.1 = some p.2) →
    (∀ p ∈ U, kc p.1 = true) →
    (∀ p ∈ U, occursIn p.1 b = false) →
    replaceAll U a = b
  | .mk n cs, .mk n2 cs2 => fun s h U hres hbasic hocc => by
    simp only [unifyWith] at h
    by_cases he : PTerm.mk n cs = PTerm.mk n2 cs2
    · rw [he]
      exact replaceAll_not_occurs U _ hocc
    · rw [if_neg he] at h
      by_cases hka : kc (.mk n cs) = true
      · simp only [hka, if_true] at h
        simp at h
        subst h
        have hl : keyLookup U (.mk n cs) = some (.mk n2 cs2) :=
          hres (PTerm.mk n cs, PTerm.mk n2 cs2) (by simp)
        simp [replaceAll, hl]
      · simp only [Bool.not_eq_true] at hka
        simp only [hka, Bool.false_eq_true, if_false] at h
        by_cases hkb : kc (.mk n2 cs2) = true
        · simp [hkb] at h
        · simp only [Bool.not_eq_true] at hkb
          simp only [hkb, Bool.false_eq_true, if_false] at h
          by_cases hcond : eq_child_independent_attrs (.mk n cs) (.mk n2 cs2) = true
              ∧ cs.length = cs2.length
          · rw [if_pos hcond] at h
            have hname : n = n2 := by
              have hn := hcond.1
              simpa [eq_child_independent_attrs, PTerm.name] using hn
            subst hname
            have hnone : keyLookup U (.mk n cs) = none := by
              rw [keyLookup_none_iff]
              intro p hp heq
              have hkp := hbasic p hp
              rw [heq] at hkp
              simp [hka] at hkp
            have hchildren : replaceAllList U cs = cs2 := by
              refine unifyChildren_replace_aux kc cs cs2 [] s h U hres hbasic ?_
              intro p hp
              have hp2 := hocc p hp
              simp [occursIn] at hp2
              exact hp2.2
            simp [replaceAll, hnone, hchildren]
          · rw [if_neg hcond] at h
            simp at h

theorem unifyChildren_replace_aux (kc : PTerm → Bool) : ∀ as bs : List PTerm,
    ∀ acc s : Subst, unifyChildren kc acc as bs = some s → ∀ U : Subst,
    (∀ p ∈ s, keyLookup U p.1 = some p.2) →
    (∀ p ∈ U, kc p.1 = true) →
    (∀ p ∈ U, occursInList p.1 bs = false) →
    replaceAllList U as = bs
  | [], [], acc, s => fun _ U _ _ _ => by simp [replaceAllList]
  | [], _ :: _, acc, s => fun h => by simp [unifyChildren] at h
  | _ :: _, [], acc, s => fun h => by simp [unifyChildren] at h
  | a :: as, b :: bs, acc, s => fun h U hres hbasic hocc => by
    simp only [unifyChildren] at h
    cases h1 : unifyWith kc a b with
    | none => simp [h1] at h
    | some s1 =>
      simp only [h1] at h
      cases h2 : mergeSubst acc s1 with
      | none => simp [h2] at h
      | some acc2 =>
        simp only [h2] at h
        have hb : ∀ p ∈ U, occursIn p.1 b = false := by
          intro p hp
          have hp2 := hocc p hp
          simp [occursInList, Bool.or_eq_false_iff] at hp2
          exact hp2.1
        have hbs : ∀ p ∈ U, occursInList p.1 bs = false := by
          intro p hp
          have hp2 := hocc p hp
          simp [occursInList, Bool.or_eq_false_iff] at hp2
          exact hp2.2
        have hres1 : ∀ p ∈ s1, keyLookup U p.1 = some p.2 := by
          intro p hp
          have hp2 : keyLookup acc2 p.1 = some p.2 := mergeSubst_lookup_new h2 p hp
          have hp3 : keyLookup s p.1 = some p.2 :=
            unifyChildren_lookup_preserve kc as bs acc2 s h hp2
          exact hres _ (keyLookup_some_mem hp3)
        have hhead : replaceAll U a = b :=
          unifyWith_replace_aux kc a b s1 h1 U hres1 hbasic hb
        have htail : replaceAllList U as = bs :=
          unifyChildren_replace_aux kc as bs acc2 s h U hres hbasic hbs
        simp [replaceAllList, hhead, htail]

end

/-! Lemmas about position-restricted replacement. -/

theorem mem_tailsFor {i : Nat} : ∀ {ps : List (List Nat)} {rest : List Nat},
    rest ∈ tailsFor i ps ↔ (i :: rest) ∈ ps := by
  intro ps
  induction ps with
  | nil => simp [tailsFor]
  | cons q qs ih =>
    intro rest
    match q with
    | [] => simp [tailsFor, ih]
    | j :: p =>
      by_cases hj : j = i
      · subst hj
        simp [tailsFor, ih, List.cons.injEq]
      · simp [tailsFor, hj, ih, List.cons.injEq, Ne.symm hj]

mutual

theorem replacePos_nil (m : Subst) : ∀ t : PTerm, replacePos m [] t = t
  | .mk n cs => by
    simp [replacePos, replacePosList_nil m 0 cs]

theorem replacePosList_nil (m : Subst) : ∀ (i : Nat) (cs : List PTerm),
    replacePosList m [] i cs = cs
  | _, [] => by simp [replacePosList]
  | i, c :: cs => by
    simp [replacePosList, tailsFor, replacePos_nil m c, replacePosList_nil m (i + 1) cs]

end

theorem replacePosList_single_empty (m : Subst) : ∀ (i : Nat) (cs : List PTerm),
    replacePosList m [[]] i cs = cs
  | _, [] => by simp [replacePosList]
  | i, c :: cs => by
    simp [replacePosList, tailsFor, replacePos_nil m c,
      replacePosList_single_empty m (i + 1) cs]

mutual

theorem replacePos_oob (m : Subst) : ∀ (ps : List (List Nat)) (t : PTerm),
    (∀ p ∈ ps, inBoundsPath p t = false) → replacePos m ps t = t
  | ps, .mk n cs => fun h => by
    have h0 : ([] : List Nat) ∉ ps := by
      intro hmem
      have h2 := h [] hmem
      simp [inBoundsPath] at h2
    have hcs : replacePosList m ps 0 cs = cs := by
      refine replacePosList_oob m ps 0 cs ?_
      intro k rest hmem c hc
      have h2 := h ((0 + k) :: rest) hmem
      rw [Nat.zero_add] at h2
      simpa [inBoundsPath, PTerm.children, hc] using h2
    simp [replacePos, h0, hcs]

theorem replacePosList_oob (m : Subst) : ∀ (ps : List (List Nat)) (i : Nat)
    (cs : List PTerm),
    (∀ (k : Nat) (rest : List Nat), ((i + k) :: rest) ∈ ps → ∀ c, cs[k]? = some c →
      inBoundsPath rest c = false) →
    replacePosList m ps i cs = cs
  | ps, i, [] => fun _ => by simp [replacePosList]
  | ps, i, c :: cs => fun h => by
    have hhead : ∀ rest ∈ tailsFor i ps, inBoundsPath rest c = false := by
      intro rest hrest
      have hmem : (i :: rest) ∈ ps := mem_tailsFor.mp hrest
      exact h 0 rest (by simpa using hmem) c (by simp)
    have h0 : ([] : List Nat) ∉ tailsFor i ps := by
      intro hmem
      have h2 := hhead [] hmem
      simp [inBoundsPath] at h2
    have hc : replacePos m (tailsFor i ps) c = c :=
      replacePos_oob m (tailsFor i ps) c hhead
    have htail : replacePosList m ps (i + 1) cs = cs := by
      refine replacePosList_oob m ps (i + 1) cs ?_
      intro k rest hmem c2 hc2
      have h2 : ((i + (k + 1)) :: rest) ∈ ps := by
        have h3 : i + 1 + k = i + (k + 1) := by omega
        rwa [h3] at hmem
      exact h (k + 1) rest h2 c2 (by simpa using hc2)
    simp [replacePosList, h0, hc, htail]

end

theorem replacePosList_cons_nil (m : Subst) : ∀ (ps : List (List Nat)) (i : Nat)
    (cs : List PTerm), replacePosList m ([] :: ps) i cs = replacePosList m ps i cs
  | ps, i, [] => by simp [replacePosList]
  | ps, i, c :: cs => by
    simp [replacePosList, tailsFor, replacePosList_cons_nil m ps (i + 1) cs]

theorem replacePos_cons_nil_root_not_key (m : Subst) (ps : List (List Nat)) (t : PTerm)
    (h : keyLookup m t = none) : replacePos m ([] :: ps) t = replacePos m ps t := by
  obtain ⟨n, cs⟩ := t
  simp [replacePos, h, replacePosList_cons_nil]

/-! Idempotence of unrestricted replacement for maps with basic keys none of
which occurs in any value. -/

mutual

theorem replaceAll_idem_aux (m : Subst) (hleaf : ∀ p ∈ m, isLeaf p.1 = true)
    (hocc : ∀ p ∈ m, ∀ q ∈ m, occursIn p.1 q.2 = false) :
    ∀ t : PTerm, replaceAll m (replaceAll m t) = replaceAll m t
  | .mk n cs => by
    cases hl : keyLookup m (.mk n cs) with
    | some v =>
      have hv : (PTerm.mk n cs, v) ∈ m := keyLookup_some_mem hl
      have hocc2 : ∀ p ∈ m, occursIn p.1 v = false := fun p hp => hocc p hp _ hv
      simp only [replaceAll, hl]
      exact replaceAll_not_occurs m v hocc2
    | none =>
      have hrebuild : replaceAll m (.mk n cs) = .mk n (replaceAllList m cs) := by
        simp [replaceAll, hl]
      rw [hrebuild]
      have hnone2 : keyLookup m (.mk n (replaceAllList m cs)) = none := by
        cases cs with
        | nil => simpa [replaceAllList] using hl
        | cons c cs2 =>
          rw [keyLookup_none_iff]
          intro p hp heq
          have hlf := hleaf p hp
          rw [heq] at hlf
          simp [isLeaf, PTerm.children, replaceAllList] at hlf
      simp [replaceAll, hnone2, replaceAllList_idem_aux m hleaf hocc cs]

theorem replaceAllList_idem_aux (m : Subst) (hleaf : ∀ p ∈ m, isLeaf p.1 = true)
    (hocc : ∀ p ∈ m, ∀ q ∈ m, occursIn p.1 q.2 = false) :
    ∀ cs : List PTerm, replaceAllList m (replaceAllList m cs) = replaceAllList m cs
  | [] => by simp [replaceAllList]
  | c :: cs => by
    simp [replaceAllList, replaceAll_idem_aux m hleaf hocc c,
      replaceAllList_idem_aux m hleaf hocc cs]

end

/-! Serialization round trips. -/

mutual

theorem from_to_dict : ∀ t : PTerm, from_dict (to_dict t) = some t
  | .mk n cs => by
    simp [to_dict, from_dict, from_to_dictList cs]

theorem from_to_dictList : ∀ cs : List PTerm, from_dictList (to_dictList cs) = some cs
  | [] => by simp [to_dictList, from_dictList]
  | c :: cs => by
    simp [to_dictList, from_dictList, from_to_dict c, from_to_dictList cs]

end

mutual

theorem from_strip_to_dict : ∀ t : PTerm,
    from_dict (stripChildDependent (to_dict t)) = some t
  | .mk n cs => by
    simp [to_dict, stripChildDependent, from_dict, from_strip_to_dictList cs]

theorem from_strip_to_dictList : ∀ cs : List PTerm,
    from_dictList (stripChildDependentList (to_dictList cs)) = some cs
  | [] => by simp [to_dictList, stripChildDependentList, from_dictList]
  | c :: cs => by
    simp [to_dictList, stripChildDependentList, from_dictList, from_strip_to_dict c,
      from_strip_to_dictList cs]

end

/-! The claims. -/

/-- C1 (counterexample): the unify–replace round trip fails as universally
stated.  With a = f(x, g(x)) and b = f(y, g(x)), unification succeeds with the
substitution x ↦ y, but replaying it rewrites the occurrence of x inside g as
well, so a.replace(u) = f(y, g(y)) ≠ b. -/
theorem unify_replace_round_trip_cex :
    unify (PTerm.mk "f" [PTerm.mk "x" [], PTerm.mk "g" [PTerm.mk "x" []]])
        (PTerm.mk "f" [PTerm.mk "y" [], PTerm.mk "g" [PTerm.mk "x" []]])
      = some [(PTerm.mk "x" [], PTerm.mk "y" [])] ∧
    replace (PTerm.mk "f" [PTerm.mk "x" [], PTerm.mk "g" [PTerm.mk "x" []]])
        [(PTerm.mk "x" [], PTerm.mk "y" [])] none
      ≠ PTerm.mk "f" [PTerm.mk "y" [], PTerm.mk "g" [PTerm.mk "x" []]] := by
  decide

/-- C1 (amended): if u = a.unify(b) (default key_check and equal_check) is not
the null failure value and no key of u occurs anywhere in b, then
a.replace(u) == b under structural equality. -/
theorem unify_replace_round_trip (a b : PTerm) (u : Subst)
    (h : unify a b = some u) (hocc : ∀ p ∈ u, occursIn p.1 b = false) :
    replace a u none = b := by
  have hres : ∀ p ∈ u, keyLookup u p.1 = some p.2 := unifyWith_faithful isLeaf h
  have hbasic : ∀ p ∈ u, isLeaf p.1 = true := unifyWith_keys_basic isLeaf a b u h
  simpa [replace] using unifyWith_replace_aux isLeaf a b u h u hres hbasic hocc

/-- C1 (witness): the amended round trip at a concrete pair. -/
theorem unify_replace_round_trip_witness :
    unify (PTerm.mk "5" [PTerm.mk "x" []]) (PTerm.mk "5" [PTerm.mk "y" []])
      = some [(PTerm.mk "x" [], PTerm.mk "y" [])] ∧
    (∀ p ∈ [(PTerm.mk "x" [], PTerm.mk "y" [])],
      occursIn p.1 (PTerm.mk "5" [PTerm.mk "y" []]) = false) ∧
    replace (PTerm.mk "5" [PTerm.mk "x" []]) [(PTerm.mk "x" [], PTerm.mk "y" [])] none
      = PTerm.mk "5" [PTerm.mk "y" []] :=
  ⟨by decide, by decide,
    unify_replace_round_trip (PTerm.mk "5" [PTerm.mk "x" []])
      (PTerm.mk "5" [PTerm.mk "y" []]) [(PTerm.mk "x" [], PTerm.mk "y" [])]
      (by decide) (by decide)⟩

/-- C2: replace with positions omitted substitutes simultaneously — a matched
node emits the map value verbatim with no further recursion — and on the
fixture the cyclic map o1 ↦ o2, o2 ↦ o1 produces a pairwise swap of the
pre-existing occurrences: the root keeps its name "5" and the leaves, by name,
are ["2","1","1","2","2","1"]. -/
theorem replace_cyclic_swap :
    (∀ (t : PTerm) (m : Subst) (v : PTerm), keyLookup m t = some v →
      replace t m none = v) ∧
    replace o5 [(o1, o2), (o2, o1)] none =
      PTerm.mk "5" [PTerm.mk "4" [PTerm.mk "3" [o2, o1], o1], o2,
        PTerm.mk "3" [o2, o1]] ∧
    (replace o5 [(o1, o2), (o2, o1)] none).name = "5" ∧
    namesOf (leaves (replace o5 [(o1, o2), (o2, o1)] none)) =
      ["2", "1", "1", "2", "2", "1"] := by
  refine ⟨?_, by decide, by decide, by decide⟩
  intro t m v h
  obtain ⟨n, cs⟩ := t
  simp [replace, replaceAll, h]

/-- C2 (witness): the matched-node clause at a concrete input. -/
theorem replace_cyclic_swap_witness :
    keyLookup [(o1, o2)] o1 = some o2 ∧ replace o1 [(o1, o2)] none = o2 :=
  ⟨by decide, replace_cyclic_swap.1 o1 [(o1, o2)] o2 (by decide)⟩

/-- C3: serialization round trip — from_dict (to_dict t) reconstructs t for
every term, and a mapping from which the child-dependent keys (leaves) have
been removed reconstructs the same term, the child-dependent attributes being
recomputed from the reconstructed children. -/
theorem from_dict_to_dict_round_trip (t : PTerm) :
    from_dict (to_dict t) = some t ∧
    from_dict (stripChildDependent (to_dict t)) = some t :=
  ⟨from_to_dict t, from_strip_to_dict t⟩

/-- C4 (counterexample): idempotence fails under the claimed side condition
alone.  For the map m = x ↦ y, f(y) ↦ z, no key occurs anywhere inside any
value, yet on t = f(x) one application yields f(y) while a second application
rewrites f(y) to z. -/
theorem replace_idempotent_cex :
    (([(PTerm.mk "x" [], PTerm.mk "y" []),
       (PTerm.mk "f" [PTerm.mk "y" []], PTerm.mk "z" [])] : Subst).all
      (fun p =>
        ([(PTerm.mk "x" [], PTerm.mk "y" []),
          (PTerm.mk "f" [PTerm.mk "y" []], PTerm.mk "z" [])] : Subst).all
          (fun q => !(occursIn p.1 q.2))) = true) ∧
    replace (replace (PTerm.mk "f" [PTerm.mk "x" []])
        [(PTerm.mk "x" [], PTerm.mk "y" []),
         (PTerm.mk "f" [PTerm.mk "y" []], PTerm.mk "z" [])] none)
        [(PTerm.mk "x" [], PTerm.mk "y" []),
         (PTerm.mk "f" [PTerm.mk "y" []], PTerm.mk "z" [])] none
      ≠ replace (PTerm.mk "f" [PTerm.mk "x" []])
          [(PTerm.mk "x" [], PTerm.mk "y" []),
           (PTerm.mk "f" [PTerm.mk "y" []], PTerm.mk "z" [])] none := by
  decide

/-- C4 (amended): replace(m) is idempotent provided every key of m is a leaf
and no key of m occurs anywhere inside any value of m; and non-idempotence has
the claimed concrete witness m = a ↦ t with a a leaf occurring in t, here
a = x and t = f(x). -/
theorem replace_idempotent :
    (∀ (m : Subst) (t : PTerm),
      (∀ p ∈ m, isLeaf p.1 = true) →
      (∀ p ∈ m, ∀ q ∈ m, occursIn p.1 q.2 = false) →
      replace (replace t m none) m none = replace t m none) ∧
    (isLeaf (PTerm.mk "x" []) = true ∧
     occursIn (PTerm.mk "x" []) (PTerm.mk "f" [PTerm.mk "x" []]) = true ∧
     replace (replace (PTerm.mk "f" [PTerm.mk "x" []])
         [(PTerm.mk "x" [], PTerm.mk "f" [PTerm.mk "x" []])] none)
         [(PTerm.mk "x" [], PTerm.mk "f" [PTerm.mk "x" []])] none
       ≠ replace (PTerm.mk "f" [PTerm.mk "x" []])
           [(PTerm.mk "x" [], PTerm.mk "f" [PTerm.mk "x" []])] none) := by
  refine ⟨?_, by decide, by decide, by decide⟩
  intro m t hleaf hocc
  simpa [replace] using replaceAll_idem_aux m hleaf hocc t

/-- C4 (witness): the amended idempotence law at a concrete map and term. -/
theorem replace_idempotent_witness :
    (([(o1, o2)] : Subst).all (fun p => isLeaf p.1) = true) ∧
    (([(o1, o2)] : Subst).all (fun p =>
      ([(o1, o2)] : Subst).all (fun q => !(occursIn p.1 q.2))) = true) ∧
    replace (replace o5 [(o1, o2)] none) [(o1, o2)] none =
      replace o5 [(o1, o2)] none :=
  ⟨by decide, by decide,
    replace_idempotent.1 [(o1, o2)] o5 (by decide) (by decide)⟩

/-- C5: the single empty Path means apply only at the root — the map value is
returned when the root matches a key and nothing at all is substituted
otherwise; and whenever the positions contain the empty Path alongside interior
paths and the root matches a key, the root is replaced by the map value and the
interior paths beneath it are ignored. -/
theorem replace_positions_root_only :
    (∀ (t : PTerm) (m : Subst) (v : PTerm), keyLookup m t = some v →
      replace t m (some [[]]) = v) ∧
    (∀ (t : PTerm) (m : Subst), keyLookup m t = none →
      replace t m (some [[]]) = t) ∧
    (∀ (t : PTerm) (m : Subst) (ps : List (List Nat)) (v : PTerm),
      ([] : List Nat) ∈ ps → keyLookup m t = some v → replace t m (some ps) = v) := by
  refine ⟨?_, ?_, ?_⟩
  · intro t m v h
    obtain ⟨n, cs⟩ := t
    simp [replace, replacePos, h]
  · intro t m h
    obtain ⟨n, cs⟩ := t
    simp [replace, replacePos, h, replacePosList_single_empty]
  · intro t m ps v h0 h
    obtain ⟨n, cs⟩ := t
    simp [replace, replacePos, h0, h]

/-- C5 (witness): root-only positions at the fixture — a matching root is
replaced, a non-matching root leaves the term untouched, and the empty Path
alongside an interior path replaces a matching root. -/
theorem replace_positions_root_only_witness :
    keyLookup [(o5, o2)] o5 = some o2 ∧
    replace o5 [(o5, o2)] (some [[]]) = o2 ∧
    keyLookup [(o1, o2)] o5 = none ∧
    replace o5 [(o1, o2)] (some [[]]) = o5 ∧
    replace o5 [(o5, o2), (o1, o2)] (some [[0], []]) = o2 :=
  ⟨by decide,
    replace_positions_root_only.1 o5 [(o5, o2)] o2 (by decide),
    by decide,
    replace_positions_root_only.2.1 o5 [(o1, o2)] (by decide),
    replace_positions_root_only.2.2 o5 [(o5, o2), (o1, o2)] [[0], []] o2
      (by decide) (by decide)⟩

/-- C6: out-of-bounds positions and an empty positions list are defined
non-errors — replace with every listed path out-of-bounds, and replace with an
empty positions list (even when the whole term is a key of the map), return a
term structurally equal to the input. -/
theorem replace_positions_oob_empty :
    (∀ (t : PTerm) (m : Subst) (ps : List (List Nat)),
      (∀ p ∈ ps, inBoundsPath p t = false) → replace t m (some ps) = t) ∧
    (∀ (t : PTerm) (m : Subst), replace t m (some []) = t) := by
  constructor
  · intro t m ps h
    simpa [replace] using replacePos_oob m ps t h
  · intro t m
    simpa [replace] using replacePos_nil m t

/-- C6 (witness): the fixture with the out-of-bounds position [0,4], and the
empty positions list with the term itself a key of the map. -/
theorem replace_positions_oob_empty_witness :
    (([[0, 4]] : List (List Nat)).all (fun p => !(inBoundsPath p o5)) = true) ∧
    replace o5 [(o1, o2)] (some [[0, 4]]) = o5 ∧
    replace o5 [(o5, o2)] (some []) = o5 :=
  ⟨by decide,
    replace_positions_oob_empty.1 o5 [(o1, o2)] [[0, 4]] (by decide),
    replace_positions_oob_empty.2 o5 [(o5, o2)]⟩

/-- C7: whenever the hidden internal parameters are passed with a depth greater
than the length of the path, replace raises a validation failure of kind
InvalidArgument with exactly the documented message. -/
theorem replace_invalid_internal_args (t : PTerm) (m : Subst)
    (positions : Option (List (List Nat))) (p : List Nat) (d : Nat)
    (h : p.length < d) :
    replaceChecked t m positions (some p) d =
      Except.error (PyError.invalidArgument
        "Depth must be at most the length of the path if path is provided.") := by
  simp [replaceChecked, h]

/-- C7 (witness): the documented example — an empty path with depth 1. -/
theorem replace_invalid_internal_args_witness :
    ([] : List Nat).length < 1 ∧
    replaceChecked o5 [(o1, o2)] none (some []) 1 =
      Except.error (PyError.invalidArgument
        "Depth must be at most the length of the path if path is provided.") :=
  ⟨by decide, replace_invalid_internal_args o5 [(o1, o2)] none [] 1 (by decide)⟩

/-- C8: unify distinguishes trivial success from failure — structurally equal
terms unify with the empty substitution, which still tests as a success
(distinguishable from the null failure value), while an irreconcilable pair
yields the null value rather than an exception. -/
theorem unify_trivial_success_vs_failure :
    (∀ a b : PTerm, a = b →
      unify a b = some [] ∧ (unify a b).isSome = true ∧ unify a b ≠ none) ∧
    unifyWith (fun _ => false) (PTerm.mk "2" [PTerm.mk "3" []])
      (PTerm.mk "2" [PTerm.mk "1" []]) = none := by
  refine ⟨?_, by decide⟩
  intro a b h
  subst h
  obtain ⟨n, cs⟩ := a
  simp [unify, unifyWith]

/-- C8 (witness): trivial success on equal leaves. -/
theorem unify_trivial_success_vs_failure_witness :
    o1 = o1 ∧ unify o1 o1 = some [] ∧ (unify o1 o1).isSome = true :=
  ⟨rfl, (unify_trivial_success_vs_failure.1 o1 o1 rfl).1,
    (unify_trivial_success_vs_failure.1 o1 o1 rfl).2.1⟩

/-- C9: string_match enumerates every consistent assignment exactly once in the
canonical order with multi-variable lengths ascending — on the all-multi
pattern it yields the four documented assignments in order, matches_to_actual
maps them to the concrete sub-sequences, and a pattern with no valid assignment
yields the empty list. -/
theorem string_match_enumeration :
    string_match ["*a", "*b"] ([1, 2, 3] : List Int) startsWithStar =
      [[("*a", MatchVal.range 0 0), ("*b", MatchVal.range 0 3)],
       [("*a", MatchVal.range 0 1), ("*b", MatchVal.range 1 3)],
       [("*a", MatchVal.range 0 2), ("*b", MatchVal.range 2 3)],
       [("*a", MatchVal.range 0 3), ("*b", MatchVal.range 3 3)]] ∧
    matches_to_actual
      (string_match ["*a", "*b"] ([1, 2, 3] : List Int) startsWithStar)
      ([1, 2, 3] : List Int) =
      [[("*a", ActualVal.seq []), ("*b", ActualVal.seq [1, 2, 3])],
       [("*a", ActualVal.seq [1]), ("*b", ActualVal.seq [2, 3])],
       [("*a", ActualVal.seq [1, 2]), ("*b", ActualVal.seq [3])],
       [("*a", ActualVal.seq [1, 2, 3]), ("*b", ActualVal.seq [])]] ∧
    string_match ["a", "c"] ([1, 2, 3] : List Int) startsWithStar = [] := by
  refine ⟨by decide, by decide, by decide⟩

/-- C10: when the positions contain the empty Path together with interior paths
and the root matches no key of the map, the empty Path contributes nothing and
the substitution still applies at the interior positions; on the fixture,
o5.replace(o1 ↦ o2, positions=[[], [0]]) replaces only within the child at
index 0. -/
theorem replace_positions_empty_alongside_interior :
    (∀ (t : PTerm) (m : Subst) (ps : List (List Nat)), keyLookup m t = none →
      replace t m (some ([] :: ps)) = replace t m (some ps)) ∧
    replace o5 [(o1, o2)] (some [[], [0]]) =
      PTerm.mk "5" [replace o4 [(o1, o2)] none, o1, o3] := by
  refine ⟨?_, by decide⟩
  intro t m ps h
  simpa [replace] using replacePos_cons_nil_root_not_key m ps t h

/-- C10 (witness): on the fixture the empty Path contributes nothing when the
root matches no key. -/
theorem replace_positions_empty_alongside_interior_witness :
    keyLookup [(o1, o2)] o5 = none ∧
    replace o5 [(o1, o2)] (some [[], [0]]) = replace o5 [(o1, o2)] (some [[0]]) :=
  ⟨by decide,
    replace_positions_empty_alongside_interior.1 o5 [(o1, o2)] [[0]] (by decide)⟩

end PylogicSpec
